import Mathlib

/-!
Shallow embedding of the API Endpoint Usage Checker (`app.py`).

The embedding follows the source file function by function:
* `load_endpoints` (structured OpenAPI mode and plain-text mode),
* `endpoint_to_regex` (string-level pattern construction, Python 3.7+
  `re.escape` semantics, plus a small backtracking interpreter for the
  regex fragment those patterns live in),
* `find_endpoints_in_code` (line scanner building the per-project map),
* the per-project merge loop of the Streamlit driver (aggregation),
* the row construction shared by `export_to_csv` and the display table.

Python dicts are embedded as association lists in insertion order with
unique keys; machine strings are Lean `String`s.
-/

namespace EndpointChecker

/-- A descriptor key: (path template, HTTP method or empty string). -/
abbrev Key := String × String

/-- One recorded usage: `(file_path, i, project_name)` appended by
`find_endpoints_in_code`. -/
structure Occurrence where
  file_path : String
  line_number : Nat
  project_name : String
deriving DecidableEq

/-- The `used` / `used_map` dictionaries: association list in insertion
order, keyed by `Key`. -/
abbrev MatchMap := List (Key × List Occurrence)

/-- Python `key in dict`. -/
def containsKey (m : MatchMap) (k : Key) : Bool :=
  m.any (fun e => decide (e.1 = k))

/-- Python `dict[key]`, returning `[]` when the key is absent (the code
only indexes keys it just ensured are present). -/
def lookupList : MatchMap → Key → List Occurrence
  | [], _ => []
  | e :: m, k => if e.1 = k then e.2 else lookupList m k

/-- Python `dict[key].extend(os)` (or `.append` for a singleton): extend
the entry with key `k` in place. -/
def appendVals (m : MatchMap) (k : Key) (os : List Occurrence) : MatchMap :=
  m.map (fun e => if e.1 = k then (e.1, e.2 ++ os) else e)

/-- The upsert idiom the source uses twice:
`if key not in d: d[key] = []` followed by `d[key].extend(os)`.
A fresh key is appended at the end, matching dict insertion order. -/
def upsertExtend (m : MatchMap) (k : Key) (os : List Occurrence) : MatchMap :=
  appendVals (if containsKey m k then m else m ++ [(k, [])]) k os

/-! ## Spec Loader (`load_endpoints`) -/

/-- Whitespace for Python `str.strip()` (ASCII whitespace plus the
common extra Unicode space characters). -/
def isPySpace (c : Char) : Bool :=
  c = ' ' ∨ c = '\t' ∨ c = '\n' ∨ c = '\r' ∨ c = '\x0b' ∨ c = '\x0c' ∨
  c = '\x1c' ∨ c = '\x1d' ∨ c = '\x1e' ∨ c = '\x85' ∨ c = '\xa0'

/-- Python `str.strip()`: drop leading and trailing whitespace. -/
def pyStrip (s : String) : String :=
  String.mk (((s.data.dropWhile isPySpace).reverse.dropWhile isPySpace).reverse)

/-- Line boundary characters recognised by Python `str.splitlines()`. -/
def isLineBreak (c : Char) : Bool :=
  c = '\n' ∨ c = '\r' ∨ c = '\x0b' ∨ c = '\x0c' ∨
  c = '\x1c' ∨ c = '\x1d' ∨ c = '\x1e' ∨ c = '\x85' ∨
  c = '\u2028' ∨ c = '\u2029'

/-- Python `str.splitlines()` on a character list: split at each line
boundary (`\r\n` counting as a single boundary); a trailing segment is
kept only when non-empty, and the empty string yields no lines.  The
`fuel` argument only forces structural termination; every step consumes
at least one character, so `length + 1` fuel never runs out. -/
def pySplitlinesF : Nat → List Char → List String
  | 0, _ => []
  | _, [] => []
  | fuel + 1, cs =>
    let line := cs.takeWhile (fun c => !isLineBreak c)
    match cs.dropWhile (fun c => !isLineBreak c) with
    | [] => [String.mk line]
    | '\r' :: '\n' :: rest => String.mk line :: pySplitlinesF fuel rest
    | _ :: rest => String.mk line :: pySplitlinesF fuel rest

/-- Python `content.splitlines()`. -/
def pySplitlines (content : String) : List String :=
  pySplitlinesF (content.data.length + 1) content.data

/-- `load_endpoints`, plain-text branch (app.py lines 42-44):
`[(line.strip(), "") for line in content.splitlines() if line.strip()]`. -/
def load_endpoints_txt (content : String) : List Key :=
  (pySplitlines content).filterMap
    (fun line => if pyStrip line ≠ "" then some (pyStrip line, "") else none)

/-- Python `dict.get(k, dflt)` on an association list. -/
def dictGet {α : Type} (m : List (String × α)) (k : String) (dflt : α) : α :=
  match m.find? (fun e => decide (e.1 = k)) with
  | some e => e.2
  | none => dflt

/-- Python `str.upper()` (ASCII, as HTTP method names are ASCII). -/
def pyUpper (s : String) : String :=
  String.mk (s.data.map Char.toUpper)

/-- A parsed structured document, as far as `load_endpoints` inspects it:
the top-level mapping, each value itself a mapping from path to the list
of its method keys (`methods.keys()` is all the code reads). -/
abbrev ApiDoc := List (String × List (String × List String))

/-- The extraction loop shared by the JSON and YAML branches of
`load_endpoints` (app.py lines 26-30 and 35-39):
`for path, methods in spec.get("paths", {}).items(): for method in
methods.keys(): endpoints.append((path, method.upper()))`. -/
def extract_endpoints (spec : ApiDoc) : List Key :=
  (dictGet spec "paths" []).flatMap
    (fun pm => pm.2.map (fun method => (pm.1, pyUpper method)))

/-- `load_endpoints`, structured branch: the external parser
(`json.load` / `yaml.safe_load`) is abstracted as an `Except` value; a
parser exception propagates out of `load_endpoints` untouched (there is
no `try` around it), so no descriptor list is produced. -/
def load_endpoints_doc (parsed : Except String ApiDoc) : Except String (List Key) :=
  match parsed with
  | .error e => .error e
  | .ok spec => .ok (extract_endpoints spec)

/-! ## Pattern Compiler (`endpoint_to_regex`)

The source builds a regex *string* (escape, two substitutions, rstrip,
suffix append) and compiles it with `re.IGNORECASE`.  The string pipeline
is reproduced verbatim below; the resulting pattern string is then
interpreted by a small backtracking engine covering exactly the regex
fragment these patterns use (escaped literals, character classes, `.`,
`$`, groups, `?` `+` `*`). -/

/-- The characters Python 3.7+ `re.escape` prefixes with a backslash
(CPython's `_special_chars_map`). -/
def reSpecialChars : List Char :=
  ['(', ')', '[', ']', '{', '}', '?', '*', '+', '-', '|', '^', '$', '\\',
   '.', '&', '~', '#', ' ', '\t', '\n', '\r', '\x0b', '\x0c']

/-- Python 3.7+ `re.escape`. -/
def reEscape (s : String) : List Char :=
  s.data.flatMap (fun c => if reSpecialChars.contains c then ['\\', c] else [c])

/-- First character of a Python identifier: `[a-zA-Z_]`. -/
def isIdentStart (c : Char) : Bool :=
  c.isAlpha ∨ c = '_'

/-- Continuation character of a Python identifier: `[a-zA-Z0-9_]`. -/
def isIdentCont (c : Char) : Bool :=
  c.isAlphanum ∨ c = '_'

/-- `re.sub(r"\\:([a-zA-Z_][a-zA-Z0-9_]*)", r"[^/]+", pattern)`
(app.py line 53): left-to-right scan replacing each occurrence of the
two literal characters `\\` `:` followed by an identifier with `[^/]+`;
on a non-match the scan advances one character.  Fuel only forces
structural termination; each step consumes at least one character. -/
def subColonF : Nat → List Char → List Char
  | 0, cs => cs
  | _, [] => []
  | fuel + 1, '\\' :: ':' :: c :: rest =>
    if isIdentStart c then
      '[' :: '^' :: '/' :: ']' :: '+' :: subColonF fuel (rest.dropWhile isIdentCont)
    else
      '\\' :: subColonF fuel (':' :: c :: rest)
  | fuel + 1, c :: rest => c :: subColonF fuel rest

/-- The colon substitution at full fuel. -/
def subColon (cs : List Char) : List Char :=
  subColonF (cs.length + 1) cs

/-- `re.sub(r"\\{[a-zA-Z_][a-zA-Z0-9_]*\\}", r"[^/]+", pattern)`
(app.py line 56): replace each literal `\{` identifier `\}` with
`[^/]+`; identifier characters and `\` are disjoint, so the greedy run
is exactly `dropWhile`.  Fuel as in `subColonF`. -/
def subBraceF : Nat → List Char → List Char
  | 0, cs => cs
  | _, [] => []
  | fuel + 1, '\\' :: '{' :: c :: rest =>
    if isIdentStart c then
      match rest.dropWhile isIdentCont with
      | '\\' :: '}' :: rest2 => '[' :: '^' :: '/' :: ']' :: '+' :: subBraceF fuel rest2
      | _ => '\\' :: subBraceF fuel ('{' :: c :: rest)
    else
      '\\' :: subBraceF fuel ('{' :: c :: rest)
  | fuel + 1, c :: rest => c :: subBraceF fuel rest

/-- The brace substitution at full fuel. -/
def subBrace (cs : List Char) : List Char :=
  subBraceF (cs.length + 1) cs

/-- Python `pattern.rstrip("/")`. -/
def pyRstripSlash (cs : List Char) : List Char :=
  (cs.reverse.dropWhile (fun c => c = '/')).reverse

/-- The characters of the Python raw string `r"/?(\\?.*)?$"` appended at
app.py line 59.  Note the two backslashes: inside a raw string `\\?` is
an *optional literal backslash* in the regex, not an escaped question
mark, so the group reads `(\\?.*)?`. -/
def regexTail : List Char :=
  ['/', '?', '(', '\\', '\\', '?', '.', '*', ')', '?', '$']

/-- `endpoint_to_regex` (app.py lines 47-61) up to compilation: the
pattern string handed to `re.compile(..., re.IGNORECASE)`. -/
def endpoint_to_regex (endpoint : String) : List Char :=
  pyRstripSlash (subBrace (subColon (reEscape endpoint))) ++ regexTail

/-- Abstract syntax of the regex fragment `endpoint_to_regex` can emit. -/
inductive RE : Type where
  | lit : Char → RE
  | cls : Bool → List Char → RE
  | dot : RE
  | dollar : RE
  | group : List RE → RE
  | opt : RE → RE
  | plus : RE → RE
  | star : RE → RE

/-- Body of a character class: characters up to the closing `]`. -/
def parseClsBody : List Char → Option (List Char × List Char)
  | [] => none
  | ']' :: rest => some ([], rest)
  | c :: rest =>
    match parseClsBody rest with
    | some (cs, rem) => some (c :: cs, rem)
    | none => none

/-- Attach a postfix quantifier to a just-parsed atom. -/
def applyQuant (t : RE) : List Char → RE × List Char
  | '?' :: rest => (RE.opt t, rest)
  | '+' :: rest => (RE.plus t, rest)
  | '*' :: rest => (RE.star t, rest)
  | cs => (t, cs)

/-- Parse a regex sequence, stopping at `)` or end of input. -/
def parseSeq : Nat → List Char → Option (List RE × List Char)
  | 0, _ => none
  | fuel + 1, cs =>
    match cs with
    | [] => some ([], [])
    | ')' :: _ => some ([], cs)
    | _ =>
      let atom? : Option (RE × List Char) :=
        match cs with
        | [] => none
        | '\\' :: c :: rest => some (RE.lit c, rest)
        | '[' :: '^' :: rest => (parseClsBody rest).map (fun p => (RE.cls true p.1, p.2))
        | '[' :: rest => (parseClsBody rest).map (fun p => (RE.cls false p.1, p.2))
        | '(' :: rest =>
          match parseSeq fuel rest with
          | some (ts, ')' :: rem) => some (RE.group ts, rem)
          | _ => none
        | '.' :: rest => some (RE.dot, rest)
        | '$' :: rest => some (RE.dollar, rest)
        | '?' :: _ => none
        | '*' :: _ => none
        | '+' :: _ => none
        | c :: rest => some (RE.lit c, rest)
      match atom? with
      | none => none
      | some (t, rest) =>
        let q := applyQuant t rest
        match parseSeq fuel q.2 with
        | some (ts, rem) => some (q.1 :: ts, rem)
        | none => none

/-- The three shapes of matching obligations, folded into one type so
the backtracking interpreter is a single structural recursion on fuel
(and hence evaluates inside the kernel). -/
inductive MTask : Type where
  | one : RE → List Char → MTask
  | iter : RE → List Char → MTask
  | seq : List RE → List Char → MTask

/-- Backtracking interpreter: the list of all suffixes of the subject
that can remain after discharging the obligation.  `one t s` matches one
element against a prefix of `s` (case-insensitively, per
`re.IGNORECASE`); `iter t s` matches zero or more repetitions; `seq ts
s` matches the whole sequence. -/
def mRun : Nat → MTask → List (List Char)
  | 0, _ => []
  | fuel + 1, task =>
    match task with
    | .one t s =>
      match t with
      | .lit c =>
        match s with
        | [] => []
        | d :: rest => if d.toLower = c.toLower then [rest] else []
      | .cls neg body =>
        match s with
        | [] => []
        | d :: rest =>
          let mem := body.any (fun c => c.toLower = d.toLower)
          if (if neg then !mem else mem) then [rest] else []
      | .dot =>
        match s with
        | [] => []
        | d :: rest => if d = '\n' then [] else [rest]
      | .dollar => if s = [] ∨ s = ['\n'] then [s] else []
      | .group ts => mRun fuel (.seq ts s)
      | .opt t1 => s :: mRun fuel (.one t1 s)
      | .plus t1 => (mRun fuel (.one t1 s)).flatMap (fun r => mRun fuel (.iter t1 r))
      | .star t1 => mRun fuel (.iter t1 s)
    | .iter t s =>
      s :: (mRun fuel (.one t s)).flatMap (fun r => mRun fuel (.iter t r))
    | .seq ts s =>
      match ts with
      | [] => [s]
      | t :: ts => (mRun fuel (.one t s)).flatMap (fun r => mRun fuel (.seq ts r))

/-- Python `compiled.search(line)` as a Boolean: the pattern may match
starting at any position of the line (no start anchor). -/
def reSearch (pat : List Char) (line : String) : Bool :=
  match parseSeq (pat.length + 2) pat with
  | none => false
  | some (ts, rem) =>
    if rem.isEmpty then
      let fuel := 4 * (pat.length + line.length + 4)
      (line.data.tails).any (fun s => !(mRun fuel (.seq ts s)).isEmpty)
    else false

/-- `endpoint_to_regex(ep).search(line)` as used by the scanner. -/
def endpointMatches (endpoint line : String) : Bool :=
  reSearch (endpoint_to_regex endpoint) line

/-! ## Tree Scanner (`find_endpoints_in_code`)

The directory walk, extension filter and file decoding are operating
system interactions; the scanner is embedded from the point where a list
of qualifying files, each a list of decoded lines, is in hand.  The
matcher is a parameter (the source passes `endpoint_to_regex(ep)`, whose
match test depends only on the path `ep`, never on the method). -/

/-- The body of `if pattern.search(line):` (app.py lines 80-82):
`if (ep, method) not in used: used[(ep, method)] = []` then
`used[(ep, method)].append((file_path, i, project_name))`. -/
def recordOcc (used : MatchMap) (k : Key) (o : Occurrence) : MatchMap :=
  upsertExtend used k [o]

/-- The inner loop over `endpoint_patterns` for one line (app.py lines
78-82). -/
def scanLine (matcher : String → String → Bool) (eps : List Key)
    (fp proj : String) (i : Nat) (line : String) (used : MatchMap) : MatchMap :=
  eps.foldl
    (fun u k =>
      if matcher k.1 line then recordOcc u k ⟨fp, i, proj⟩ else u)
    used

/-- Fold over already-enumerated `(0-based index, line)` pairs. -/
def scanLinesAux (matcher : String → String → Bool) (eps : List Key)
    (fp proj : String) (ps : List (Nat × String)) (used : MatchMap) : MatchMap :=
  ps.foldl (fun u p => scanLine matcher eps fp proj (p.1 + 1) p.2 u) used

/-- One file's pass: `for i, line in enumerate(f, start=1)` (app.py
line 77). -/
def scanFile (matcher : String → String → Bool) (eps : List Key)
    (fp proj : String) (lines : List String) (used : MatchMap) : MatchMap :=
  scanLinesAux matcher eps fp proj lines.enum used

/-- `find_endpoints_in_code` (app.py lines 64-85) over the walked
qualifying files, each given as `(file_path, decoded lines)`. -/
def find_endpoints_in_code (matcher : String → String → Bool)
    (files : List (String × List String)) (eps : List Key)
    (proj : String) : MatchMap :=
  files.foldl (fun u f => scanFile matcher eps f.1 proj f.2 u) []

/-! ## Aggregator (the `used_map` merge loop, app.py lines 128-135) -/

/-- Merging one project's map into the accumulator:
`for key, val in partial_used.items(): if key not in used_map:
used_map[key] = []; used_map[key].extend(val)`. -/
def mergeOne (acc pm : MatchMap) : MatchMap :=
  pm.foldl (fun a e => upsertExtend a e.1 e.2) acc

/-- The whole loop over project directories: each per-project result is
merged into `used_map` in processing order, starting from `{}`. -/
def aggregate (pms : List MatchMap) : MatchMap :=
  pms.foldl mergeOne []

/-! ## Report Builder (`export_to_csv`, app.py lines 88-103)

Only the row construction is modelled; writing the bytes of the CSV
file is I/O.  The identical loop also builds the display table (app.py
lines 138-145). -/

/-- One report row `[ep, method, status, locations, projects]`. -/
structure CsvRow where
  endpoint : String
  method : String
  status : String
  files : String
  projects : String
deriving DecidableEq

/-- `"; ".join(f"{fp}:{ln}" for fp, ln, _ in occs)`. -/
def joinLocations (occs : List Occurrence) : String :=
  String.intercalate "; "
    (occs.map (fun o => o.file_path ++ ":" ++ toString o.line_number))

/-- Insertion of a string into a lexicographically sorted list. -/
def insertSorted (s : String) : List String → List String
  | [] => [s]
  | t :: ts => if s ≤ t then s :: t :: ts else t :: insertSorted s ts

/-- Python `sorted(...)` on strings. -/
def sortStrings (l : List String) : List String :=
  l.foldr insertSorted []

/-- `", ".join(sorted(set(p for _, _, p in occs)))`. -/
def joinProjects (occs : List Occurrence) : String :=
  String.intercalate ", " (sortStrings ((occs.map Occurrence.project_name).dedup))

/-- The row-building loop of `export_to_csv` (app.py lines 90-97). -/
def export_to_csv_rows (endpoints : List Key) (used : MatchMap) : List CsvRow :=
  endpoints.map (fun k =>
    if containsKey used k then
      { endpoint := k.1, method := k.2, status := "used",
        files := joinLocations (lookupList used k),
        projects := joinProjects (lookupList used k) }
    else
      { endpoint := k.1, method := k.2, status := "unused",
        files := "", projects := "" })

/-! ## Dictionary lemmas -/

/-- A map with every entry non-empty (the MatchMap invariant). -/
def invMap (m : MatchMap) : Bool :=
  m.all (fun e => !e.2.isEmpty)

theorem appendVals_cons (a : Key) (v : List Occurrence) (m : MatchMap)
    (k : Key) (os : List Occurrence) :
    appendVals ((a, v) :: m) k os =
      (if a = k then ((a, v ++ os) : Key × List Occurrence) else (a, v))
        :: appendVals m k os := by
  simp only [appendVals, List.map_cons]

theorem lookupList_cons (a : Key) (v : List Occurrence) (m : MatchMap) (k : Key) :
    lookupList ((a, v) :: m) k = if a = k then v else lookupList m k := rfl

theorem containsKey_cons (a : Key) (v : List Occurrence) (m : MatchMap) (k : Key) :
    containsKey ((a, v) :: m) k = (decide (a = k) || containsKey m k) := by
  simp [containsKey]

theorem containsKey_iff {m : MatchMap} {k : Key} :
    containsKey m k = true ↔ k ∈ m.map Prod.fst := by
  simp only [containsKey, List.any_eq_true, decide_eq_true_eq, List.mem_map]

theorem lookup_eq_nil_of_not_contains {m : MatchMap} {k : Key}
    (h : containsKey m k = false) : lookupList m k = [] := by
  induction m with
  | nil => rfl
  | cons e m ih =>
    obtain ⟨a, v⟩ := e
    rw [containsKey_cons] at h
    simp only [Bool.or_eq_false_iff, decide_eq_false_iff_not] at h
    rw [lookupList_cons, if_neg h.1]
    exact ih h.2

theorem lookup_appendVals_ne {m : MatchMap} {k k' : Key}
    (h : k' ≠ k) (os : List Occurrence) :
    lookupList (appendVals m k os) k' = lookupList m k' := by
  induction m with
  | nil => rfl
  | cons e m ih =>
    obtain ⟨a, v⟩ := e
    rw [appendVals_cons]
    by_cases ha : a = k
    · rw [if_pos ha, lookupList_cons, lookupList_cons,
        if_neg (fun hh : a = k' => h (hh.symm.trans ha)),
        if_neg (fun hh : a = k' => h (hh.symm.trans ha))]
      exact ih
    · rw [if_neg ha, lookupList_cons, lookupList_cons]
      by_cases ha' : a = k'
      · rw [if_pos ha', if_pos ha']
      · rw [if_neg ha', if_neg ha']
        exact ih

theorem lookup_appendVals_self (m : MatchMap) (k : Key) (os : List Occurrence) :
    lookupList (appendVals m k os) k =
      if containsKey m k then lookupList m k ++ os else [] := by
  induction m with
  | nil => rfl
  | cons e m ih =>
    obtain ⟨a, v⟩ := e
    rw [appendVals_cons, containsKey_cons]
    by_cases ha : a = k
    · simp [ha, lookupList_cons]
    · simp only [if_neg ha, lookupList_cons, ha, decide_False, Bool.false_or,
        if_false]
      exact ih

theorem containsKey_appendVals (m : MatchMap) (k k' : Key) (os : List Occurrence) :
    containsKey (appendVals m k os) k' = containsKey m k' := by
  induction m with
  | nil => rfl
  | cons e m ih =>
    obtain ⟨a, v⟩ := e
    rw [appendVals_cons]
    by_cases ha : a = k
    · rw [if_pos ha, containsKey_cons, containsKey_cons, ih]
    · rw [if_neg ha, containsKey_cons, containsKey_cons, ih]

theorem lookup_append (m m' : MatchMap) (k : Key) :
    lookupList (m ++ m') k =
      if containsKey m k then lookupList m k else lookupList m' k := by
  induction m with
  | nil => rfl
  | cons e m ih =>
    obtain ⟨a, v⟩ := e
    rw [List.cons_append, lookupList_cons, containsKey_cons]
    by_cases ha : a = k
    · simp [ha, lookupList_cons]
    · simp only [if_neg ha, ha, decide_False, Bool.false_or, lookupList_cons]
      exact ih

theorem lookup_upsertExtend (m : MatchMap) (k k' : Key) (os : List Occurrence) :
    lookupList (upsertExtend m k os) k' =
      lookupList m k' ++ (if k' = k then os else []) := by
  unfold upsertExtend
  by_cases hc : containsKey m k = true
  · rw [if_pos hc]
    by_cases hk : k' = k
    · subst hk
      rw [lookup_appendVals_self, if_pos hc, if_pos rfl]
    · rw [lookup_appendVals_ne hk, if_neg hk, List.append_nil]
  · rw [if_neg hc]
    have hav : appendVals (m ++ [(k, [])]) k os
        = appendVals m k os ++ [(k, os)] := by
      simp [appendVals]
    rw [hav, lookup_append, containsKey_appendVals]
    by_cases hk : k' = k
    · subst hk
      rw [if_neg hc, if_pos rfl,
        show lookupList m k' = [] from
          lookup_eq_nil_of_not_contains (by simpa using hc),
        lookupList_cons, if_pos rfl]
      rfl
    · rw [if_neg hk, List.append_nil]
      by_cases hc' : containsKey m k' = true
      · rw [if_pos hc', lookup_appendVals_ne hk]
      · rw [if_neg hc',
          show lookupList m k' = [] from
            lookup_eq_nil_of_not_contains (by simpa using hc'),
          lookupList_cons, if_neg (fun hh => hk hh.symm)]
        rfl

theorem invMap_iff {m : MatchMap} :
    invMap m = true ↔ ∀ e ∈ m, e.2 ≠ [] := by
  simp [invMap, List.all_eq_true, List.isEmpty_iff]

theorem invMap_upsertExtend {m : MatchMap} {k : Key} {os : List Occurrence}
    (hos : os ≠ []) (hm : invMap m = true) :
    invMap (upsertExtend m k os) = true := by
  rw [invMap_iff] at hm ⊢
  intro e he
  unfold upsertExtend at he
  by_cases hc : containsKey m k
  · rw [if_pos hc] at he
    simp only [appendVals, List.mem_map] at he
    obtain ⟨e0, he0, rfl⟩ := he
    by_cases h0 : e0.1 = k
    · simp [h0, hm e0 he0]
    · simpa [h0] using hm e0 he0
  · rw [if_neg hc] at he
    simp only [appendVals, List.map_append, List.mem_append, List.mem_map] at he
    rcases he with ⟨e0, he0, rfl⟩ | he
    · by_cases h0 : e0.1 = k
      · simp [h0, hm e0 he0]
      · simpa [h0] using hm e0 he0
    · simp at he
      subst he
      simpa using hos

/-! ## Scanner and merge characterization -/

theorem lookup_recordOcc (u : MatchMap) (k k' : Key) (o : Occurrence) :
    lookupList (recordOcc u k o) k' =
      lookupList u k' ++ (if k' = k then [o] else []) :=
  lookup_upsertExtend u k k' [o]

/-- Occurrences one line contributes to a key: one copy per (duplicate)
appearance of that key in the scanned descriptor list, when the line
matches. -/
def lineContrib (matcher : String → String → Bool) (eps : List Key)
    (fp proj : String) (i : Nat) (line : String) (k : Key) : List Occurrence :=
  if matcher k.1 line then
    List.replicate (eps.countP (fun e => decide (e = k))) ⟨fp, i, proj⟩
  else []

theorem lookup_scanLine (matcher : String → String → Bool) (eps : List Key)
    (fp proj : String) (i : Nat) (line : String) (u : MatchMap) (k : Key) :
    lookupList (scanLine matcher eps fp proj i line u) k =
      lookupList u k ++ lineContrib matcher eps fp proj i line k := by
  induction eps generalizing u with
  | nil => simp [scanLine, lineContrib]
  | cons e es ih =>
    simp only [scanLine, List.foldl_cons] at ih ⊢
    rw [ih]
    by_cases he : e = k
    · subst he
      by_cases hm : matcher e.1 line = true
      · rw [if_pos hm]
        simp [lineContrib, hm, lookup_recordOcc, List.countP_cons,
          List.replicate_succ, List.append_assoc]
      · rw [if_neg hm]
        simp [lineContrib, hm]
    · by_cases hm : matcher e.1 line = true
      · rw [if_pos hm]
        simp only [lookup_recordOcc, if_neg (fun hh : k = e => he hh.symm),
          List.append_nil]
        simp [lineContrib, List.countP_cons, he]
      · rw [if_neg hm]
        simp [lineContrib, List.countP_cons, he]

theorem lookup_scanLinesAux (matcher : String → String → Bool) (eps : List Key)
    (fp proj : String) (ps : List (Nat × String)) (u : MatchMap) (k : Key) :
    lookupList (scanLinesAux matcher eps fp proj ps u) k =
      lookupList u k ++
        ps.flatMap (fun p => lineContrib matcher eps fp proj (p.1 + 1) p.2 k) := by
  induction ps generalizing u with
  | nil => simp [scanLinesAux]
  | cons p ps ih =>
    simp only [scanLinesAux, List.foldl_cons, List.flatMap_cons] at ih ⊢
    rw [ih, lookup_scanLine, List.append_assoc]

/-- Occurrences one file contributes to a key. -/
def fileContrib (matcher : String → String → Bool) (eps : List Key)
    (proj : String) (f : String × List String) (k : Key) : List Occurrence :=
  f.2.enum.flatMap (fun p => lineContrib matcher eps f.1 proj (p.1 + 1) p.2 k)

theorem lookup_scanFile (matcher : String → String → Bool) (eps : List Key)
    (proj : String) (f : String × List String) (u : MatchMap) (k : Key) :
    lookupList (scanFile matcher eps f.1 proj f.2 u) k =
      lookupList u k ++ fileContrib matcher eps proj f k :=
  lookup_scanLinesAux matcher eps f.1 proj f.2.enum u k

/-- Full characterization of the Tree Scanner's map: the occurrence list
for a key is the in-order concatenation of the per-file, per-line
contributions. -/
theorem lookup_find_endpoints (matcher : String → String → Bool)
    (files : List (String × List String)) (eps : List Key)
    (proj : String) (k : Key) :
    lookupList (find_endpoints_in_code matcher files eps proj) k =
      files.flatMap (fun f => fileContrib matcher eps proj f k) := by
  have main : ∀ (fs : List (String × List String)) (u : MatchMap),
      lookupList (fs.foldl (fun u f => scanFile matcher eps f.1 proj f.2 u) u) k =
        lookupList u k ++ fs.flatMap (fun f => fileContrib matcher eps proj f k) := by
    intro fs
    induction fs with
    | nil => simp
    | cons f fs ih =>
      intro u
      simp only [List.foldl_cons, List.flatMap_cons]
      rw [ih, lookup_scanFile, List.append_assoc]
  simpa [find_endpoints_in_code, lookupList] using main files []

theorem lookup_mergeOne (acc : MatchMap) (pm : MatchMap) (k : Key)
    (h : (pm.map Prod.fst).Nodup) :
    lookupList (mergeOne acc pm) k = lookupList acc k ++ lookupList pm k := by
  induction pm generalizing acc with
  | nil => simp [mergeOne, lookupList]
  | cons e pm ih =>
    obtain ⟨a, v⟩ := e
    simp only [List.map_cons, List.nodup_cons, List.mem_map] at h
    simp only [mergeOne, List.foldl_cons] at ih ⊢
    rw [ih _ h.2, lookup_upsertExtend, lookupList_cons]
    by_cases hk : a = k
    · subst hk
      rw [if_pos rfl, if_pos rfl]
      have : lookupList pm a = [] := by
        apply lookup_eq_nil_of_not_contains
        cases hck : containsKey pm a with
        | false => rfl
        | true =>
          have hmem := containsKey_iff.mp hck
          simp only [List.mem_map] at hmem
          exact absurd hmem h.1
      rw [this, List.append_nil]
    · rw [if_neg (fun hh : k = a => hk hh.symm), if_neg hk, List.append_nil]

theorem lookup_aggregate (pms : List MatchMap) (k : Key)
    (h : ∀ p ∈ pms, (p.map Prod.fst).Nodup) :
    lookupList (aggregate pms) k =
      (pms.map (fun p => lookupList p k)).flatten := by
  have main : ∀ (ps : List MatchMap) (acc : MatchMap),
      (∀ p ∈ ps, (p.map Prod.fst).Nodup) →
      lookupList (ps.foldl mergeOne acc) k =
        lookupList acc k ++ (ps.map (fun p => lookupList p k)).flatten := by
    intro ps
    induction ps with
    | nil => simp
    | cons p ps ih =>
      intro acc hps
      simp only [List.foldl_cons, List.map_cons, List.flatten_cons]
      rw [ih _ (fun q hq => hps q (List.mem_cons_of_mem _ hq)),
        lookup_mergeOne _ _ _ (hps p (List.mem_cons_self _ _)), List.append_assoc]
  simpa [aggregate, lookupList] using main pms [] h

/-! ## Invariant preservation (no empty occurrence lists) -/

theorem invMap_recordOcc {u : MatchMap} (k : Key) (o : Occurrence)
    (h : invMap u = true) : invMap (recordOcc u k o) = true :=
  invMap_upsertExtend (by simp) h

theorem invMap_scanLine (matcher : String → String → Bool) (eps : List Key)
    (fp proj : String) (i : Nat) (line : String) {u : MatchMap}
    (h : invMap u = true) :
    invMap (scanLine matcher eps fp proj i line u) = true := by
  induction eps generalizing u with
  | nil => simpa [scanLine]
  | cons e es ih =>
    simp only [scanLine, List.foldl_cons] at ih ⊢
    by_cases hm : matcher e.1 line = true
    · rw [if_pos hm]
      exact ih (invMap_recordOcc _ _ h)
    · rw [if_neg hm]
      exact ih h

theorem invMap_scanLinesAux (matcher : String → String → Bool) (eps : List Key)
    (fp proj : String) (ps : List (Nat × String)) {u : MatchMap}
    (h : invMap u = true) :
    invMap (scanLinesAux matcher eps fp proj ps u) = true := by
  induction ps generalizing u with
  | nil => simpa [scanLinesAux]
  | cons p ps ih =>
    simp only [scanLinesAux, List.foldl_cons] at ih ⊢
    exact ih (invMap_scanLine matcher eps fp proj (p.1 + 1) p.2 h)

theorem invMap_find_endpoints (matcher : String → String → Bool)
    (files : List (String × List String)) (eps : List Key) (proj : String) :
    invMap (find_endpoints_in_code matcher files eps proj) = true := by
  have main : ∀ (fs : List (String × List String)) (u : MatchMap),
      invMap u = true →
      invMap (fs.foldl (fun u f => scanFile matcher eps f.1 proj f.2 u) u) = true := by
    intro fs
    induction fs with
    | nil => exact fun u h => h
    | cons f fs ih =>
      intro u h
      simp only [List.foldl_cons]
      exact ih _ (invMap_scanLinesAux matcher eps f.1 proj f.2.enum h)
  exact main files [] rfl

theorem invMap_mergeOne {acc pm : MatchMap}
    (hacc : invMap acc = true) (hpm : ∀ e ∈ pm, e.2 ≠ []) :
    invMap (mergeOne acc pm) = true := by
  induction pm generalizing acc with
  | nil => simpa [mergeOne]
  | cons e pm ih =>
    simp only [mergeOne, List.foldl_cons] at ih ⊢
    exact ih (invMap_upsertExtend (hpm e (List.mem_cons_self _ _)) hacc)
      (fun e' he' => hpm e' (List.mem_cons_of_mem _ he'))

theorem invMap_aggregate {pms : List MatchMap}
    (h : ∀ p ∈ pms, invMap p = true) : invMap (aggregate pms) = true := by
  have main : ∀ (ps : List MatchMap) (acc : MatchMap),
      invMap acc = true → (∀ p ∈ ps, invMap p = true) →
      invMap (ps.foldl mergeOne acc) = true := by
    intro ps
    induction ps with
    | nil => exact fun acc hacc _ => hacc
    | cons p ps ih =>
      intro acc hacc hps
      simp only [List.foldl_cons]
      exact ih _
        (invMap_mergeOne hacc
          (invMap_iff.mp (hps p (List.mem_cons_self _ _))))
        (fun q hq => hps q (List.mem_cons_of_mem _ hq))
  exact main pms [] rfl h

/-! ## Counting helpers for duplicate-freeness of recorded occurrences -/

theorem countP_replicate {α : Type} (p : α → Bool) (a : α) (n : Nat) :
    (List.replicate n a).countP p = if p a then n else 0 := by
  induction n with
  | zero => simp
  | succ n ih =>
    rw [List.replicate_succ, List.countP_cons, ih]
    by_cases hp : p a = true <;> simp [hp]

theorem countP_flatMapList {α β : Type} (p : β → Bool) (l : List α)
    (g : α → List β) :
    (l.flatMap g).countP p = (l.map (fun a => (g a).countP p)).sum := by
  induction l with
  | nil => simp
  | cons a l ih =>
    simp only [List.flatMap_cons, List.countP_append, List.map_cons,
      List.sum_cons, ih]

theorem countP_key_le_one {α β : Type} [DecidableEq β] (l : List α)
    (f : α → β) (b : β) (h : (l.map f).Nodup) :
    l.countP (fun a => decide (f a = b)) ≤ 1 := by
  induction l with
  | nil => simp
  | cons a l ih =>
    simp only [List.map_cons, List.nodup_cons, List.mem_map] at h
    rw [List.countP_cons]
    by_cases hb : f a = b
    · have hz : l.countP (fun a => decide (f a = b)) = 0 := by
        rw [List.countP_eq_zero]
        intro x hx
        simp only [decide_eq_true_eq]
        exact fun hfx => h.1 ⟨x, hx, hfx.trans hb.symm⟩
      simp [hb, hz]
    · simpa [hb] using ih h.2

theorem sum_le_one_of_single {α : Type} (l : List α) (h : α → Nat)
    (q : α → Bool)
    (hz : ∀ a ∈ l, q a = false → h a = 0)
    (hle : ∀ a ∈ l, h a ≤ 1)
    (hq : l.countP q ≤ 1) :
    (l.map h).sum ≤ 1 := by
  induction l with
  | nil => simp
  | cons a l ih =>
    rw [List.map_cons, List.sum_cons]
    rw [List.countP_cons] at hq
    by_cases ha : q a = true
    · rw [if_pos ha] at hq
      have hcl : l.countP q = 0 := by omega
      have hsum : (l.map h).sum = 0 := by
        apply List.sum_eq_zero
        intro y hy
        obtain ⟨x, hx, rfl⟩ := List.mem_map.mp hy
        refine hz x (List.mem_cons_of_mem _ hx) ?_
        have hnx := (List.countP_eq_zero.mp hcl) x hx
        cases hqx : q x with
        | false => rfl
        | true => exact absurd hqx hnx
      rw [hsum]
      have := hle a (List.mem_cons_self _ _)
      omega
    · have ha' : q a = false := by
        cases hqa : q a with
        | false => rfl
        | true => exact absurd hqa ha
      rw [if_neg ha] at hq
      rw [hz a (List.mem_cons_self _ _) ha']
      simp only [Nat.zero_add]
      exact ih (fun x hx => hz x (List.mem_cons_of_mem _ hx))
        (fun x hx => hle x (List.mem_cons_of_mem _ hx)) (by omega)

theorem mem_lineContrib {matcher : String → String → Bool} {eps : List Key}
    {fp proj : String} {i : Nat} {line : String} {k : Key} {o : Occurrence}
    (h : o ∈ lineContrib matcher eps fp proj i line k) : o = ⟨fp, i, proj⟩ := by
  unfold lineContrib at h
  by_cases hm : matcher k.1 line = true
  · rw [if_pos hm] at h
    exact (List.mem_replicate.mp h).2
  · rw [if_neg hm] at h
    exact absurd h (List.not_mem_nil o)

theorem mem_fileContrib {matcher : String → String → Bool} {eps : List Key}
    {proj : String} {f : String × List String} {k : Key} {o : Occurrence}
    (h : o ∈ fileContrib matcher eps proj f k) :
    ∃ j, o = ⟨f.1, j + 1, proj⟩ := by
  unfold fileContrib at h
  obtain ⟨p, _, hp⟩ := List.mem_flatMap.mp h
  exact ⟨p.1, mem_lineContrib hp⟩

theorem countP_lineContrib_le (matcher : String → String → Bool) (eps : List Key)
    (fp proj : String) (i : Nat) (line : String) (k : Key) (p : Occurrence → Bool)
    (h : eps.countP (fun e => decide (e = k)) ≤ 1) :
    (lineContrib matcher eps fp proj i line k).countP p ≤ 1 := by
  unfold lineContrib
  by_cases hm : matcher k.1 line = true
  · rw [if_pos hm, countP_replicate]
    by_cases hp : p ⟨fp, i, proj⟩ = true <;> simp [hp, h]
  · rw [if_neg hm]
    simp

/-- Within one scanner invocation over distinct file paths and a
descriptor list containing `k` at most once, at most one occurrence with
a given (file, line) pair is recorded for `k`. -/
theorem countP_find_le_one (matcher : String → String → Bool)
    (files : List (String × List String)) (eps : List Key) (proj : String)
    (k : Key) (fp : String) (i : Nat)
    (h1 : eps.countP (fun e => decide (e = k)) ≤ 1)
    (h2 : (files.map Prod.fst).Nodup) :
    ((lookupList (find_endpoints_in_code matcher files eps proj) k).countP
      (fun o => decide (o.file_path = fp ∧ o.line_number = i))) ≤ 1 := by
  rw [lookup_find_endpoints, countP_flatMapList]
  apply sum_le_one_of_single files _ (fun f => decide (f.1 = fp))
  · intro f _ hf
    simp only [decide_eq_false_iff_not] at hf
    rw [List.countP_eq_zero]
    intro o ho
    obtain ⟨j, rfl⟩ := mem_fileContrib ho
    simp [hf]
  · intro f _
    rw [fileContrib, countP_flatMapList]
    apply sum_le_one_of_single f.2.enum _ (fun p => decide (p.1 + 1 = i))
    · intro p _ hp
      simp only [decide_eq_false_iff_not] at hp
      rw [List.countP_eq_zero]
      intro o ho
      rw [mem_lineContrib ho]
      simp [hp]
    · intro p _
      exact countP_lineContrib_le matcher eps f.1 proj (p.1 + 1) p.2 k _ h1
    · have hn : (f.2.enum.map (fun p => p.1 + 1)).Nodup := by
        have : f.2.enum.map (fun p => p.1 + 1)
            = (f.2.enum.map Prod.fst).map (fun j => j + 1) := by
          rw [List.map_map]
          rfl
        rw [this, List.enum_map_fst]
        exact (List.nodup_range _).map (add_left_injective 1)
      exact countP_key_le_one f.2.enum (fun p => p.1 + 1) i hn
  · exact countP_key_le_one files Prod.fst fp h2

theorem lookup_self_mem {m : MatchMap} {k : Key}
    (h : containsKey m k = true) : (k, lookupList m k) ∈ m := by
  induction m with
  | nil => simp [containsKey] at h
  | cons e m ih =>
    obtain ⟨a, v⟩ := e
    rw [containsKey_cons] at h
    rw [lookupList_cons]
    by_cases ha : a = k
    · subst ha
      rw [if_pos rfl]
      exact List.mem_cons_self _ _
    · rw [if_neg ha]
      simp only [ha, decide_False, Bool.false_or] at h
      exact List.mem_cons_of_mem _ (ih h)

/-! ## Claim theorems -/

/-- C1.  The spec claims both placeholder syntaxes are widened to a
non-slash run, so that `/users/:id` matches `/users/42/` and
`/users/42?x=1`.  On Python ≥ 3.7, `re.escape` no longer escapes `:`,
so the substitution pattern `\\:` (literal backslash-colon) never finds
a match and `:id` stays literal text: the compiled matcher rejects both
lines and only accepts lines containing the literal `/users/:id`. -/
theorem colon_placeholder_not_widened :
    endpointMatches "/users/:id" "/users/42/" = false ∧
    endpointMatches "/users/:id" "/users/42?x=1" = false ∧
    endpointMatches "/users/:id" "/users/:id" = true := by
  refine ⟨?_, ?_, ?_⟩ <;> decide

/-- C2.  The `{id}` placeholder is widened, and `fetch('/users/42')`
matches; but the appended suffix is the raw string `r"/?(\\?.*)?$"`,
whose `\\?` is an optional literal backslash rather than an escaped
question mark, so `.*` lets arbitrary text follow: `/users/42/extra`
also matches, contradicting the claim. -/
theorem brace_template_matches_extra_segment :
    endpointMatches "/users/{id}" "fetch('/users/42')" = true ∧
    endpointMatches "/users/{id}" "/users/42/extra" = true := by
  refine ⟨?_, ?_⟩ <;> decide

/-- C3.  The literal template `/health` matches `GET /health` and
`/health/` as claimed, but because of the same `(\\?.*)?` suffix it also
matches `/healthcheck`, contradicting the claim. -/
theorem literal_template_matches_longer_name :
    endpointMatches "/health" "GET /health" = true ∧
    endpointMatches "/health" "/health/" = true ∧
    endpointMatches "/health" "/healthcheck" = true := by
  refine ⟨?_, ?_, ?_⟩ <;> decide

/-- C4.  The report rows list the descriptors exactly once, in order,
and a row is "used" precisely when the key's occurrence list in the
match map is non-empty (given the scanner invariant that no entry is
empty); every status is "used" or "unused". -/
theorem export_to_csv_rows_report (endpoints : List Key) (used : MatchMap)
    (hM : ∀ e ∈ used, e.2 ≠ []) :
    (export_to_csv_rows endpoints used).map (fun r => (r.endpoint, r.method))
        = endpoints ∧
    ∀ r ∈ export_to_csv_rows endpoints used,
      (r.status = "used" ↔ lookupList used (r.endpoint, r.method) ≠ []) ∧
      (r.status = "used" ∨ r.status = "unused") := by
  constructor
  · rw [export_to_csv_rows, List.map_map]
    conv_rhs => rw [← List.map_id endpoints]
    apply List.map_congr_left
    intro k _
    by_cases hc : containsKey used k = true <;> simp [hc]
  · intro r hr
    rw [export_to_csv_rows] at hr
    obtain ⟨k, hk, rfl⟩ := List.mem_map.mp hr
    by_cases hc : containsKey used k = true
    · rw [if_pos hc]
      have hne : lookupList used k ≠ [] := hM _ (lookup_self_mem hc)
      exact ⟨by simpa using hne, Or.inl rfl⟩
    · rw [if_neg hc]
      have hnil : lookupList used k = [] :=
        lookup_eq_nil_of_not_contains (by simpa using hc)
      refine ⟨⟨fun hcontra => by simp at hcontra, fun hcontra => ?_⟩,
        Or.inr rfl⟩
      rw [show ((k.1, k.2) : Key) = k from rfl] at hcontra
      exact absurd hnil hcontra

/-- Witness for C4 at a concrete descriptor list and match map. -/
theorem export_to_csv_rows_report_witness :
    (export_to_csv_rows [("/a", "GET"), ("/b", "")]
        [(("/a", "GET"), [⟨"f.js", 3, "proj"⟩])]).map
      (fun r => (r.endpoint, r.method)) = [("/a", "GET"), ("/b", "")] :=
  (export_to_csv_rows_report [("/a", "GET"), ("/b", "")]
    [(("/a", "GET"), [⟨"f.js", 3, "proj"⟩])] (by decide)).1

/-- C5.  Plain-list loading yields exactly one descriptor
`(trimmed line, "")` per line whose trimmed content is non-empty, in
line order; blank lines contribute nothing. -/
theorem load_endpoints_txt_lines (content : String) :
    load_endpoints_txt content =
      ((pySplitlines content).filter (fun l => decide (pyStrip l ≠ ""))).map
        (fun l => (pyStrip l, "")) := by
  unfold load_endpoints_txt
  induction pySplitlines content with
  | nil => rfl
  | cons l ls ih =>
    by_cases hl : pyStrip l ≠ ""
    · simp only [List.filterMap_cons, List.filter_cons, if_pos hl,
        if_pos (decide_eq_true hl), List.map_cons]
      exact congrArg (List.cons _) ih
    · simp only [List.filterMap_cons, List.filter_cons, if_neg hl,
        if_neg (show ¬decide (pyStrip l ≠ "") = true by simp [not_ne_iff.mp hl])]
      exact ih

/-- C6.  The aggregated map binds every key to the concatenation, in
project-processing order, of the per-project occurrence lists for that
key; nothing is dropped or deduplicated. -/
theorem aggregate_concatenates (pms : List MatchMap)
    (h : ∀ p ∈ pms, (p.map Prod.fst).Nodup) (k : Key) :
    lookupList (aggregate pms) k =
      (pms.map (fun p => lookupList p k)).flatten :=
  lookup_aggregate pms k h

/-- Witness for C6: two projects both matching `("/ping", "")`. -/
theorem aggregate_concatenates_witness :
    lookupList
        (aggregate [[(("/ping", ""), [⟨"fileA.js", 10, "projA"⟩])],
          [(("/ping", ""), [⟨"fileB.ts", 3, "projB"⟩])]]) ("/ping", "") =
      ([[(("/ping", ""), [⟨"fileA.js", 10, "projA"⟩])],
        [(("/ping", ""), [⟨"fileB.ts", 3, "projB"⟩])]].map
          (fun p => lookupList p ("/ping", ""))).flatten :=
  aggregate_concatenates
    [[(("/ping", ""), [⟨"fileA.js", 10, "projA"⟩])],
     [(("/ping", ""), [⟨"fileB.ts", 3, "projB"⟩])]]
    (by decide) ("/ping", "")

/-- C7.  Neither the scanner nor the merge loop ever creates an entry
with an empty occurrence list: every key present in a scanner-produced
map, or in a merge of maps satisfying the invariant, has at least one
occurrence. -/
theorem matchmap_no_empty_entries :
    (∀ (matcher : String → String → Bool)
        (files : List (String × List String)) (eps : List Key) (proj : String),
        invMap (find_endpoints_in_code matcher files eps proj) = true) ∧
    (∀ pms : List MatchMap, (∀ p ∈ pms, invMap p = true) →
        invMap (aggregate pms) = true) :=
  ⟨fun matcher files eps proj => invMap_find_endpoints matcher files eps proj,
   fun _ h => invMap_aggregate h⟩

/-- Witness for C7 on a concrete scan and merge. -/
theorem matchmap_no_empty_entries_witness :
    invMap (find_endpoints_in_code (fun ep line => endpointMatches ep line)
        [("a.js", ["fetch('/health')"])] [("/health", "")] "proj") = true ∧
    invMap (aggregate [[(("/ping", ""), [⟨"f.js", 1, "pa"⟩])]]) = true :=
  ⟨matchmap_no_empty_entries.1 (fun ep line => endpointMatches ep line)
      [("a.js", ["fetch('/health')"])] [("/health", "")] "proj",
   matchmap_no_empty_entries.2 [[(("/ping", ""), [⟨"f.js", 1, "pa"⟩])]]
      (by decide)⟩

/-- C8.  A parser failure on a structured document propagates out of the
loader unchanged: the result is exactly that parse error and no
descriptor list. -/
theorem load_endpoints_doc_parse_error (parsed : Except String ApiDoc)
    (e : String) (h : parsed = .error e) :
    load_endpoints_doc parsed = .error e := by
  subst h
  rfl

/-- Witness for C8 at a concrete parse error. -/
theorem load_endpoints_doc_parse_error_witness :
    load_endpoints_doc (.error "unexpected token") = .error "unexpected token" :=
  load_endpoints_doc_parse_error (.error "unexpected token") "unexpected token" rfl

/-- C9.  A well-formed document without a top-level "paths" key loads
successfully as the empty descriptor list, indistinguishable from a
document declaring zero paths. -/
theorem load_endpoints_doc_missing_paths (spec : ApiDoc)
    (h : spec.find? (fun e => decide (e.1 = "paths")) = none) :
    load_endpoints_doc (.ok spec) = .ok [] ∧
    load_endpoints_doc (.ok spec) = load_endpoints_doc (.ok [("paths", [])]) := by
  have hget : dictGet spec "paths" ([] : List (String × List String)) = [] := by
    unfold dictGet
    rw [h]
  have h1 : load_endpoints_doc (.ok spec) = .ok [] := by
    simp [load_endpoints_doc, extract_endpoints, hget]
  exact ⟨h1, by rw [h1]; rfl⟩

/-- Witness for C9 on a concrete document with no "paths" key. -/
theorem load_endpoints_doc_missing_paths_witness :
    load_endpoints_doc (.ok [("info", [("t", ["desc"])])]) = .ok [] ∧
    load_endpoints_doc (.ok [("info", [("t", ["desc"])])])
        = load_endpoints_doc (.ok [("paths", [])]) :=
  load_endpoints_doc_missing_paths [("info", [("t", ["desc"])])] (by decide)

/-- C10 counterexample.  The loader preserves duplicate descriptors, and
the scanner loops over every `(key, pattern)` pair per line, so a
descriptor list containing `("/health", "")` twice records the same
(descriptor, file, line) triple twice in one file pass. -/
theorem scan_duplicate_descriptor_two_records :
    ((lookupList (find_endpoints_in_code (fun ep line => endpointMatches ep line)
        [("a.js", ["fetch('/health')"])] [("/health", ""), ("/health", "")] "proj")
        ("/health", "")).countP
      (fun o => decide (o.file_path = "a.js" ∧ o.line_number = 1))) = 2 := by
  decide

/-- C10 (amended).  Provided the scanned descriptor list contains the
key at most once — and the walked file paths are distinct, as a
directory walk guarantees — at most one occurrence per (descriptor,
file, line) triple is recorded, even when the pattern occurs several
times within the line. -/
theorem scan_at_most_one_per_line (matcher : String → String → Bool)
    (files : List (String × List String)) (eps : List Key) (proj : String)
    (k : Key) (fp : String) (i : Nat)
    (h1 : eps.countP (fun e => decide (e = k)) ≤ 1)
    (h2 : (files.map Prod.fst).Nodup) :
    ((lookupList (find_endpoints_in_code matcher files eps proj) k).countP
      (fun o => decide (o.file_path = fp ∧ o.line_number = i))) ≤ 1 :=
  countP_find_le_one matcher files eps proj k fp i h1 h2

/-- Witness for the amended C10 on a duplicate-free descriptor list. -/
theorem scan_at_most_one_per_line_witness :
    ((lookupList (find_endpoints_in_code (fun ep line => endpointMatches ep line)
        [("a.js", ["fetch('/health')"])] [("/health", "")] "proj")
        ("/health", "")).countP
      (fun o => decide (o.file_path = "a.js" ∧ o.line_number = 1))) ≤ 1 :=
  scan_at_most_one_per_line (fun ep line => endpointMatches ep line)
    [("a.js", ["fetch('/health')"])] [("/health", "")] "proj"
    ("/health", "") "a.js" 1 (by decide) (by decide)

end EndpointChecker
